import Mathlib

/-!
Verification of the graph-viewport scene-tree core.

This file embeds the state-management functions of the repository
(`src/utilities.js` — reducer composition and the graph-plane / graph-edge
state functions, `src/graph-node.js`, `src/graph-viewport.js`) as executable
Lean definitions and proves / refutes the frozen claims about them.

Conventions of the embedding:
* JavaScript numbers are modelled as `ℚ` (all arithmetic occurring in the
  sources is exact rational arithmetic); integer event fields as `ℤ`.
* A scene node is a tagged record (`GNode`) mirroring the unist shape
  `{ type, key, worldMatrix, data, children }`; absent fields are `Option`s.
* Pure JS functions become Lean functions on these values.  JS code that can
  throw is embedded in `Except JsError`.
* The affine-frame operations come from the external `@mvarble/frames.js`
  package, whose code is not part of this repository; they are modelled from
  the spec (section 4.1) and each such definition carries a doc comment
  saying so.
-/

/-- 3×3 matrices over ℚ, the `worldMatrix` of every scene node (mathjs
matrices in the source). -/
structure Mat3 where
  m00 : ℚ
  m01 : ℚ
  m02 : ℚ
  m10 : ℚ
  m11 : ℚ
  m12 : ℚ
  m20 : ℚ
  m21 : ℚ
  m22 : ℚ
deriving DecidableEq, Repr

namespace Mat3

/-- Matrix product. -/
def mul (A B : Mat3) : Mat3 where
  m00 := A.m00 * B.m00 + A.m01 * B.m10 + A.m02 * B.m20
  m01 := A.m00 * B.m01 + A.m01 * B.m11 + A.m02 * B.m21
  m02 := A.m00 * B.m02 + A.m01 * B.m12 + A.m02 * B.m22
  m10 := A.m10 * B.m00 + A.m11 * B.m10 + A.m12 * B.m20
  m11 := A.m10 * B.m01 + A.m11 * B.m11 + A.m12 * B.m21
  m12 := A.m10 * B.m02 + A.m11 * B.m12 + A.m12 * B.m22
  m20 := A.m20 * B.m00 + A.m21 * B.m10 + A.m22 * B.m20
  m21 := A.m20 * B.m01 + A.m21 * B.m11 + A.m22 * B.m21
  m22 := A.m20 * B.m02 + A.m21 * B.m12 + A.m22 * B.m22

/-- The identity matrix (`math.identity(3)` in the source). -/
def one : Mat3 := ⟨1, 0, 0, 0, 1, 0, 0, 0, 1⟩

/-- Determinant. -/
def det (A : Mat3) : ℚ :=
  A.m00 * (A.m11 * A.m22 - A.m12 * A.m21)
    - A.m01 * (A.m10 * A.m22 - A.m12 * A.m20)
    + A.m02 * (A.m10 * A.m21 - A.m11 * A.m20)

/-- Inverse by the adjugate formula (division in ℚ is total; every matrix the
source inverts is affine with determinant ±(scale)² ≠ 0). -/
def inv (A : Mat3) : Mat3 :=
  let d := A.det
  ⟨ (A.m11 * A.m22 - A.m12 * A.m21) / d
  , (A.m02 * A.m21 - A.m01 * A.m22) / d
  , (A.m01 * A.m12 - A.m02 * A.m11) / d
  , (A.m12 * A.m20 - A.m10 * A.m22) / d
  , (A.m00 * A.m22 - A.m02 * A.m20) / d
  , (A.m02 * A.m10 - A.m00 * A.m12) / d
  , (A.m10 * A.m21 - A.m11 * A.m20) / d
  , (A.m01 * A.m20 - A.m00 * A.m21) / d
  , (A.m00 * A.m11 - A.m01 * A.m10) / d ⟩

/-- Pure translation matrix. -/
def translation (dx dy : ℚ) : Mat3 := ⟨1, 0, dx, 0, 1, dy, 0, 0, 1⟩

/-- Diagonal scale matrix `diag(fx, fy, 1)`. -/
def diagScale (fx fy : ℚ) : Mat3 := ⟨fx, 0, 0, 0, fy, 0, 0, 0, 1⟩

/-- Apply the linear (upper-left 2×2) part to a vector: this is how
directions transform (`vecFrameTrans` ignores translation). -/
def linApply (A : Mat3) (v : ℚ × ℚ) : ℚ × ℚ :=
  (A.m00 * v.1 + A.m01 * v.2, A.m10 * v.1 + A.m11 * v.2)

end Mat3

/-- The tag of a scene node (`node.type` strings in the source). -/
inductive NType where
  | root
  | window
  | plane
  | graphNode
  | inEdge
  | outEdge
deriving DecidableEq, Repr

/-- The `data` payload of a scene node.  Fields a given node variant does not
use keep their defaults; `Option` encodes a possibly-`undefined` JS field. -/
structure NData where
  selected : Bool
  active : Bool
  title : String
  linkedTo : Option Int
  toPoint : Option (ℚ × ℚ)
  parentKey : Option Int
  clickBox : List ℚ
deriving DecidableEq, Repr

/-- Payload with everything absent/false — a fresh `data: {}`. -/
def NData.empty : NData := ⟨false, false, "", none, none, none, []⟩

/-- A scene node: `{ type, key, worldMatrix, data, children }`.  `key` is
`none` on variants without a key (root, window, plane, in-edge-node). -/
inductive GNode where
  | mk (type : NType) (key : Option Int) (worldMatrix : Mat3) (data : NData)
      (children : List GNode)

namespace GNode

def type : GNode → NType
  | .mk t _ _ _ _ => t

def key : GNode → Option Int
  | .mk _ k _ _ _ => k

def worldMatrix : GNode → Mat3
  | .mk _ _ w _ _ => w

def data : GNode → NData
  | .mk _ _ _ d _ => d

def children : GNode → List GNode
  | .mk _ _ _ _ cs => cs

/-- Replace the children list (`nodeCopy.children = …`). -/
def withChildren : GNode → List GNode → GNode
  | .mk t k w d _, cs => .mk t k w d cs

/-- Replace the data payload. -/
def withData : GNode → NData → GNode
  | .mk t k w _ cs, d => .mk t k w d cs

/-- Replace the key (`newEdge.key = …`). -/
def withKey : GNode → Option Int → GNode
  | .mk t _ w d cs, k => .mk t k w d cs

/-- Replace the world matrix. -/
def withMatrix : GNode → Mat3 → GNode
  | .mk t k _ d cs, w => .mk t k w d cs

@[simp] theorem type_mk (t k w d cs) : (GNode.mk t k w d cs).type = t := rfl
@[simp] theorem key_mk (t k w d cs) : (GNode.mk t k w d cs).key = k := rfl
@[simp] theorem worldMatrix_mk (t k w d cs) :
    (GNode.mk t k w d cs).worldMatrix = w := rfl
@[simp] theorem data_mk (t k w d cs) : (GNode.mk t k w d cs).data = d := rfl
@[simp] theorem children_mk (t k w d cs) :
    (GNode.mk t k w d cs).children = cs := rfl

@[simp] theorem type_withChildren (n cs) : (withChildren n cs).type = n.type := by
  cases n; rfl
@[simp] theorem key_withChildren (n cs) : (withChildren n cs).key = n.key := by
  cases n; rfl
@[simp] theorem data_withChildren (n cs) : (withChildren n cs).data = n.data := by
  cases n; rfl
@[simp] theorem worldMatrix_withChildren (n cs) :
    (withChildren n cs).worldMatrix = n.worldMatrix := by cases n; rfl
@[simp] theorem children_withChildren (n cs) : (withChildren n cs).children = cs := by
  cases n; rfl

@[simp] theorem type_withData (n d) : (withData n d).type = n.type := by
  cases n; rfl
@[simp] theorem key_withData (n d) : (withData n d).key = n.key := by
  cases n; rfl
@[simp] theorem data_withData (n d) : (withData n d).data = d := by
  cases n; rfl
@[simp] theorem children_withData (n d) : (withData n d).children = n.children := by
  cases n; rfl

@[simp] theorem type_withKey (n k) : (withKey n k).type = n.type := by
  cases n; rfl
@[simp] theorem key_withKey (n k) : (withKey n k).key = k := by
  cases n; rfl
@[simp] theorem data_withKey (n k) : (withKey n k).data = n.data := by
  cases n; rfl
@[simp] theorem children_withKey (n k) : (withKey n k).children = n.children := by
  cases n; rfl

theorem eta (n : GNode) :
    GNode.mk n.type n.key n.worldMatrix n.data n.children = n := by
  cases n; rfl

end GNode

mutual

/-- Apply a world-space affine map `A` to a frame: every node of the subtree
gets its `worldMatrix` premultiplied by `A`.  Modelled from the spec:
frames.js operations "return new nodes; no in-place mutation" and children
"move with the parent automatically because transforms compose"
(spec section 4.1); types, keys and data payloads are untouched. -/
def transformTree (A : Mat3) : GNode → GNode
  | .mk t k w d cs => .mk t k (A.mul w) d (transformTrees A cs)

/-- The `transformTree` mapped over a list of children. -/
def transformTrees (A : Mat3) : List GNode → List GNode
  | [] => []
  | c :: cs => transformTree A c :: transformTrees A cs

end

theorem transformTrees_eq_map (A : Mat3) :
    ∀ l : List GNode, transformTrees A l = l.map (transformTree A)
  | [] => rfl
  | c :: cs => by
    rw [transformTrees, List.map_cons, transformTrees_eq_map A cs]

@[simp] theorem type_transformTree (A : Mat3) (n : GNode) :
    (transformTree A n).type = n.type := by cases n; rfl

@[simp] theorem key_transformTree (A : Mat3) (n : GNode) :
    (transformTree A n).key = n.key := by cases n; rfl

@[simp] theorem data_transformTree (A : Mat3) (n : GNode) :
    (transformTree A n).data = n.data := by cases n; rfl

@[simp] theorem worldMatrix_transformTree (A : Mat3) (n : GNode) :
    (transformTree A n).worldMatrix = A.mul n.worldMatrix := by cases n; rfl

@[simp] theorem children_transformTree (A : Mat3) (n : GNode) :
    (transformTree A n).children = n.children.map (transformTree A) := by
  cases n with
  | mk t k w d cs => rw [transformTree]; exact transformTrees_eq_map A cs

/-- Modelled from the spec: `translated(node, delta, referenceFrame)` —
"returns a copy of `node` whose matrix has translation `delta` (expressed in
`referenceFrame`) pre/post-composed appropriately, leaving rotation/scale
unchanged", children moving along (spec section 4.1).  The translation
`delta`, a direction in `referenceFrame`, is converted to world coordinates
through the reference frame's linear part and premultiplied. -/
def translatedFrame (frame : GNode) (disp : ℚ × ℚ) (ref : GNode) : GNode :=
  let worldDisp := ref.worldMatrix.linApply disp
  transformTree (Mat3.translation worldDisp.1 worldDisp.2) frame

/-- Modelled from the spec: `scaled(node, factors, pivotFrame)` — "returns a
copy scaled about the origin of `pivotFrame`, used for zoom"
(spec section 4.1). -/
def scaledFrame (frame : GNode) (factors : ℚ × ℚ) (pivot : GNode) : GNode :=
  transformTree
    (pivot.worldMatrix.mul ((Mat3.diagScale factors.1 factors.2).mul
      pivot.worldMatrix.inv))
    frame

/-- Modelled from the spec: the Viewport Controller "recomputes the Window
matrix on container resize" (spec section 4.6) — the node's `worldMatrix` is
replaced; each child node carries its own `worldMatrix`, which the
replacement does not touch. -/
def withWorldMatrix (frame : GNode) (M : Mat3) : GNode :=
  frame.withMatrix M

@[simp] theorem data_translatedFrame (frame disp ref) :
    (translatedFrame frame disp ref).data = frame.data := by
  simp [translatedFrame]

@[simp] theorem type_translatedFrame (frame disp ref) :
    (translatedFrame frame disp ref).type = frame.type := by
  simp [translatedFrame]

@[simp] theorem key_translatedFrame (frame disp ref) :
    (translatedFrame frame disp ref).key = frame.key := by
  simp [translatedFrame]

/-!
## State-management functions of `src/graph-node.js`
-/

/-- The `selectNode` (graph-node.js): shallow-copies the node and sets
`data.selected = data.active = true`.  (The copy shares the `data` object
with the input; the in-place effect on that shared object is analysed
separately in the heap model below — on values the result is the node with
both flags set.) -/
def selectNode (node : GNode) : GNode :=
  node.withData { node.data with selected := true, active := true }

/-- The `deselectNode` (graph-node.js): clears `selected` and `active`. -/
def deselectNode (node : GNode) : GNode :=
  node.withData { node.data with selected := false, active := false }

/-- The `moveTop(key)` (graph-node.js): move the child with the matching key to
the front of the parent's child list; no-op when the key is absent. -/
def moveTop (key : Int) (parent : GNode) : GNode :=
  match h : parent.children.findIdx? (fun c => c.key == some key) with
  | some index =>
    parent.withChildren
      (parent.children.get
          ⟨index, (List.findIdx?_eq_some_iff_findIdx_eq.mp h).1⟩
        :: parent.children.take index ++ parent.children.drop (index + 1))
  | none => parent

/-- The second half of `makeActive`: if the child at position 0 carries the
key, select+activate it and clear `active` (only) on all remaining
siblings. -/
def promoteIfTop (key : Int) (parentCopy : GNode) : GNode :=
  match parentCopy.children with
  | [] => parentCopy
  | c0 :: rest =>
    if c0.key == some key then
      parentCopy.withChildren
        (selectNode c0 ::
          rest.map (fun c => c.withData { c.data with active := false }))
    else parentCopy

/-- The `makeActive(key)` (graph-node.js): move the target to the front; if it
ended up at position 0, select+activate it and clear `active` (only) on all
remaining siblings. -/
def makeActive (key : Int) (parent : GNode) : GNode :=
  promoteIfTop key (moveTop key parent)

/-- The second half of `makeOnlySelected`: if the child at position 0
carries the key, select+activate it and fully deselect all remaining
siblings. -/
def exclusiveIfTop (key : Int) (parentCopy : GNode) : GNode :=
  match parentCopy.children with
  | [] => parentCopy
  | c0 :: rest =>
    if c0.key == some key then
      parentCopy.withChildren (selectNode c0 :: rest.map deselectNode)
    else parentCopy

/-- The `makeOnlySelected(key)` (graph-node.js): move the target to the front;
if it ended up at position 0, select+activate it and fully deselect all
remaining siblings. -/
def makeOnlySelected (key : Int) (parent : GNode) : GNode :=
  exclusiveIfTop key (moveTop key parent)

/-- The `movedNode` (graph-node.js): translate a node by `(dx, dy)` in canvas
coordinates. -/
def movedNode (node : GNode) (dx dy : ℚ) : GNode :=
  translatedFrame node (dx, dy)
    (GNode.mk NType.root none Mat3.one NData.empty [])

/-- The `dragNodes({movementX, movementY})` (graph-node.js): the parent-scoped
mutation that moves every selected child by the pointer delta. -/
def dragNodes (movementX movementY : ℚ) (parent : GNode) : GNode :=
  parent.withChildren
    (parent.children.map (fun node =>
      if node.data.selected then movedNode node movementX movementY else node))

/-- A pointer-move sample: `movementX` / `movementY` of a mousemove event. -/
structure MoveSample where
  movementX : ℤ
  movementY : ℤ
deriving DecidableEq, Repr

/-- The continuation filter of the node drag stream (graph-node.js):
`move$.drop(1).filter(e => e.movementX && e.movementY)`.  A JS number is
truthy exactly when it is nonzero, so the sample is kept iff both
components are nonzero. -/
def moveSampleKept (e : MoveSample) : Bool :=
  e.movementX != 0 && e.movementY != 0

/-!
## State-management functions of the graph-plane module (`src/utilities.js`)
-/

/-- The `deselectGraphNodes` (graph-plane): deselect every child of the plane. -/
def deselectGraphNodes (plane : GNode) : GNode :=
  plane.withChildren (plane.children.map deselectNode)

/-- A wheel event: `deltaY` plus the pointer position on the canvas
(`relativeMousePosition(event)` of viewport.js).  Modelled from the spec:
the host event source supplies "`wheel` with `deltaY` and position"
(spec section 6). -/
structure WheelEvent where
  deltaY : ℤ
  posX : ℚ
  posY : ℚ
deriving DecidableEq, Repr

/-- Squared euclidean norm of the unit diagonal `[1,1]` carried to canvas
coordinates through the plane's frame — `vecFrameTrans([1,1], plane,
canvas)` with the canvas frame the identity.  The source compares
`zoomScale = sqrt(norm(v))` against 5 and 10; since `sqrt` and `norm` are
strictly monotone, `zoomScale < 5 ↔ normSq < 5⁴` and
`zoomScale > 10 ↔ normSq > 10⁴`, which keeps the embedding inside ℚ. -/
def diagNormSq (plane : GNode) : ℚ :=
  let v := plane.worldMatrix.linApply (1, 1)
  v.1 ^ 2 + v.2 ^ 2

/-- The frame based at the mouse location built by `changeZoom`. -/
def mouseFrame (posX posY : ℚ) : GNode :=
  GNode.mk NType.root none ⟨1, 0, posX, 0, -1, posY, 0, 0, 1⟩ NData.empty []

/-- The `changeZoom(event, plane)` (graph-plane in utilities.js): return the
plane unchanged when zooming out below the lower bound or in above the upper
bound, else scale the plane by `1.1 ^ (-deltaY)` about the mouse position.
The guards compare `sqrt(norm(vecFrameTrans([1,1], plane, canvas)))` with 5
and 10, embedded here as fourth-power comparisons on the squared norm. -/
def changeZoom (event : WheelEvent) (plane : GNode) : GNode :=
  if diagNormSq plane < 625 ∧ event.deltaY > 0 then plane
  else if diagNormSq plane > 10000 ∧ event.deltaY < 0 then plane
  else
    let factor : ℚ := (11 / 10 : ℚ) ^ (-event.deltaY)
    scaledFrame plane (factor, factor) (mouseFrame event.posX event.posY)

/-- The `dragPlane(plane, dx, dy)` (graph-plane in utilities.js): translate the
plane frame in canvas coordinates and deselect every graph node. -/
def dragPlane (plane : GNode) (dx dy : ℚ) : GNode :=
  let planeFrame := translatedFrame plane (dx, dy)
    (GNode.mk NType.root none Mat3.one NData.empty [])
  planeFrame.withChildren (planeFrame.children.map deselectNode)

/-!
## Reducer composition (`src/utilities.js`)
-/

/-- The parent-level reducer produced by `liftReducer` from a keyed child
reducer: copy the tree, locate the child whose `key` matches, and replace it
with the reducer applied; when no child matches, the copy is returned with
its children untouched (a field-identical shallow copy, which the value
embedding identifies with the tree itself). -/
def liftReducer (key : Int) (reducer : GNode → GNode) (tree : GNode) : GNode :=
  match tree.children.findIdx? (fun c => c.key == some key) with
  | some index =>
    tree.withChildren (tree.children.set index
      (reducer (tree.children.getD index tree)))
  | none => tree.withChildren tree.children

/-!
## State-management functions of the graph-edge module (`src/utilities.js`)
-/

/-- The `updateEdgeNode(edgeNode, hoveredNode, position)` (graph-edge): set
`linkedTo` to the hovered in-edge-node's `parentKey` (or `undefined`) and
`to` to the free pointer position (or `undefined`). -/
def updateEdgeNode (edgeNode : GNode) (hovered : Option GNode)
    (position : Option (ℚ × ℚ)) : GNode :=
  edgeNode.withData
    { edgeNode.data with
      linkedTo := hovered.bind (fun hn => hn.data.parentKey)
      toPoint := position }

/-- The drag-release self mutation of the Edge Controller (graph-edge,
non-mousemove branch of `drag$`): `updateEdgeNode` followed by
`eCopy.data.to = undefined`. -/
def finalizeEdgeNode (hovered : Option GNode) (position : Option (ℚ × ℚ))
    (e : GNode) : GNode :=
  let eCopy := updateEdgeNode e hovered position
  eCopy.withData { eCopy.data with toPoint := none }

/-- The predicate `updateGraphNode` scans children with: an out-edge-node
whose `linkedTo` is `undefined` — an *open* anchor. -/
def openOutP (e : GNode) : Bool :=
  e.type == NType.outEdge && e.data.linkedTo == none

/-- The `Array.prototype.map((e, k) => …)` with the element index, starting the
count at `i`. -/
def mapFromIdx (f : ℕ → GNode → GNode) : ℕ → List GNode → List GNode
  | _, [] => []
  | i, c :: cs => f i c :: mapFromIdx f (i + 1) cs

/-- The per-element shift `addEdgeNode` applies while rebuilding the
children: out-edge-node `i` moves left by `2i/(n(n+1))`, everything else is
kept as-is. -/
def edgeShiftAdd (node : GNode) (i : ℕ) (e : GNode) : GNode :=
  let np1 : ℚ := node.children.length
  if e.type == NType.outEdge then
    translatedFrame e (-2 * (i : ℚ) / (np1 * (np1 + 1)), 0) node
  else e

/-- The fresh trailing anchor `addEdgeNode` builds: a copy of the current
last child translated right by `2/(n(n+1))`, with `linkedTo` cleared and key
`max(keys)+1` (`math.max(node.children.map(e => e.key || 0))` — a missing
key counts as 0; keys in this tree are natural numbers). -/
def addEdgeNewEdge (node : GNode) : GNode :=
  let np1 : ℚ := node.children.length
  let newEdge0 := translatedFrame
      (node.children.getD (node.children.length - 1) node)
      (2 / (np1 * (np1 + 1)), 0) node
  (newEdge0.withData { newEdge0.data with linkedTo := none }).withKey
    (some ((node.children.map (fun e => e.key.getD 0)).foldl max 0 + 1))

/-- The `addEdgeNode(node)` (graph-edge): translate every existing
out-edge-node left by `2i/(n(n+1))` and append the fresh trailing anchor. -/
def addEdgeNode (node : GNode) : GNode :=
  node.withChildren
    (mapFromIdx (edgeShiftAdd node) 0 node.children ++ [addEdgeNewEdge node])

/-- The shift `removeEdgeNode` applies to the children preceding the removed
index: out-edge-node `k` moves right by `2k/(n(n-1))`. -/
def edgeShiftBefore (node : GNode) (k : ℕ) (e : GNode) : GNode :=
  let np1 : ℚ := node.children.length
  if e.type == NType.outEdge then
    translatedFrame e (2 * (k : ℚ) / (np1 * (np1 - 1)), 0) node
  else e

/-- The shift `removeEdgeNode` applies to the children following the removed
index: every one moves left by `2(n-(k+index+1))/(n(n-1))` (no type guard in
the source here). -/
def edgeShiftAfter (node : GNode) (index : ℕ) (k : ℕ) (e : GNode) : GNode :=
  let np1 : ℚ := node.children.length
  translatedFrame e
    (-2 * (np1 - ((k : ℚ) + (index : ℚ) + 1)) / (np1 * (np1 - 1)), 0) node

/-- The `removeEdgeNode(node, index)` (graph-edge): drop the child at `index`,
shifting the preceding out-edge-nodes right and every following child left
to close the gap. -/
def removeEdgeNode (node : GNode) (index : ℕ) : GNode :=
  node.withChildren
    (mapFromIdx (edgeShiftBefore node) 0 (node.children.take index) ++
      mapFromIdx (edgeShiftAfter node index) 0 (node.children.drop (index + 1)))

/-- The `updateGraphNode(node)` (graph-edge): the trailing-anchor repair run as
an upward mutation after every drag release — if no out-edge-node is open,
append a fresh trailing anchor; if the open one is already last, do nothing;
otherwise remove it and close the gap. -/
def updateGraphNode (node : GNode) : GNode :=
  match node.children.findIdx? openOutP with
  | none => addEdgeNode node
  | some index =>
    if index = node.children.length - 1 then node
    else removeEdgeNode node index

/-!
## The graph-viewport module (`src/graph-viewport.js`, and the variant in
`src/unnamed/part_004`)
-/

/-- A JS exception observable from the state functions. -/
inductive JsError where
  | referenceError (name : String)
deriving DecidableEq, Repr

/-- The root of the wire-format tree:
`Root{ id, width?, height?, children: [Window] }`. -/
structure RootTree where
  id : Option String
  width : Option ℚ
  height : Option ℚ
  window : GNode

/-- The window matrix installed by `resizeState`: it maps the normalized
square `[-1,1]×[-1,1]` onto `width × height` pixels with Y flipped. -/
def winMat (width height : ℚ) : Mat3 :=
  ⟨width / 2, 0, width / 2, 0, -height / 2, height / 2, 0, 0, 1⟩

/-- The pivot frame used by `resizeState` to re-normalize the plane: based
at the canvas center with Y flipped. -/
def centerFrame (width height : ℚ) : GNode :=
  GNode.mk NType.root none ⟨1, 0, width / 2, 0, -1, height / 2, 0, 0, 1⟩
    NData.empty []

/-- The `resizeState(tree, width, height)` (graph-viewport): install the fresh
window matrix, scale the plane's X axis by `-M[1][1]/M[0][0]` about the
canvas center, and rebuild the root with the new `width`/`height`. -/
def resizeState (tree : RootTree) (width height : ℚ) : RootTree :=
  let windowFrame := withWorldMatrix tree.window (winMat width height)
  let plane0 := windowFrame.children.getD 0 windowFrame
  let M := plane0.worldMatrix
  let planeFrame := scaledFrame plane0 (-M.m11 / M.m00, 1)
    (centerFrame width height)
  ⟨tree.id, some width, some height, windowFrame.withChildren [planeFrame]⟩

/-- The `deleteSelectedNodes(tree)` (graph-viewport): filters the plane children
with `n => n.data.selected` — which *keeps* the selected nodes (the module's
README documents this reducer as deleting them) — and then evaluates the
result literal `{ canvas: tree.canvas, width: tree.width, width: height }`
(`{ id: tree.id, … }` in the part_004 variant), whose value `height` is an
identifier bound nowhere in the module: the call always throws a
`ReferenceError`. -/
def deleteSelectedNodes (tree : RootTree) : Except JsError RootTree :=
  let windowFrame := tree.window
  let planeFrame := windowFrame.children.getD 0 windowFrame
  let _filtered := planeFrame.children.filter (fun n => n.data.selected)
  Except.error (JsError.referenceError "height")

/-- The fresh graph node `appendNode` builds: key `max(keys)+1` (or 0 on an
empty plane), box matrix `diag(2.5·pM₀₀, pM₁₁)` at the window's translation,
selected and active, with one in-edge-node above and one out-edge-node
below. -/
def appendNodeNewBox (tree : RootTree) : GNode :=
  let windowFrame := tree.window
  let planeFrame := windowFrame.children.getD 0 windowFrame
  let wM := windowFrame.worldMatrix
  let pM := planeFrame.worldMatrix
  let key : Int :=
    if planeFrame.children.length = 0 then 0
    else (planeFrame.children.map (fun c => c.key.getD 0)).foldl max 0 + 1
  GNode.mk NType.graphNode (some key)
    ⟨5 / 2 * pM.m00, 0, wM.m02, 0, pM.m11, wM.m12, 0, 0, 1⟩
    { NData.empty with
      clickBox := [-1, -1, 1, 1], selected := true, active := true }
    [ GNode.mk NType.inEdge none
        ⟨1 / 10 * pM.m00, 0, wM.m02, 0, 1 / 10 * pM.m11,
          wM.m12 + 9 / 10 * pM.m11, 0, 0, 1⟩
        { NData.empty with clickBox := [-4, -4, 4, 1], parentKey := some key }
        []
    , GNode.mk NType.outEdge (some 0)
        ⟨1 / 10 * pM.m00, 0, wM.m02, 0, 1 / 10 * pM.m11,
          wM.m12 - 9 / 10 * pM.m11, 0, 0, 1⟩
        { NData.empty with clickBox := [-4, -1, 4, 4], parentKey := some key }
        [] ]

/-- The `appendNode(tree)` (graph-viewport): builds the new box, then evaluates
`planeFrame.children = [newBox, ...planeFrame.children.map(deselectBox)]`.
The identifier `deselectBox` is bound nowhere in the module (neither defined
nor imported — `deselectNode` of graph-node.js is the function that exists),
so evaluating the array literal throws a `ReferenceError` on every call,
also when the plane is empty: the argument is evaluated before `map` runs. -/
def appendNode (tree : RootTree) : Except JsError RootTree :=
  let _newBox := appendNodeNewBox tree
  Except.error (JsError.referenceError "deselectBox")

/-!
## Heap model of the in-place flag writes (for the frame-effect claim)

`selectNode` / `deselectNode` in graph-node.js copy the node with a spread
(`{ ...node }`), which copies the *reference* to the `data` object, and then
assign `nodeCopy.data.selected` / `.active` — writes that land on the object
the input still references.  The value-level definitions above cannot see
this; here the `data` object lives behind an address in an explicit heap.
-/

/-- The mutable store of `data` objects, addressed by reference. -/
abbrev Heap := Nat → NData

/-- A scene node as the JS engine sees it: fields hold values or references;
`dataRef` is the reference to the shared `data` object, `childrenRef` the
reference to the children array (opaque here — these functions never touch
it). -/
structure HNode where
  key : Option Int
  worldMatrix : Mat3
  dataRef : Nat
  childrenRef : Nat
deriving DecidableEq, Repr

/-- The `selectNode` as executed: `{ ...node }` shallow-copies every field (the
copy shares `dataRef` with the input), then `nodeCopy.data.selected = true;
nodeCopy.data.active = true` write through the shared reference. -/
def selectNodeJS (h : Heap) (node : HNode) : Heap × HNode :=
  ( fun a =>
      if a = node.dataRef then
        { h node.dataRef with selected := true, active := true }
      else h a
  , { key := node.key, worldMatrix := node.worldMatrix
    , dataRef := node.dataRef, childrenRef := node.childrenRef } )

/-- The `deselectNode` as executed: same shape, clearing both flags through the
shared reference. -/
def deselectNodeJS (h : Heap) (node : HNode) : Heap × HNode :=
  ( fun a =>
      if a = node.dataRef then
        { h node.dataRef with selected := false, active := false }
      else h a
  , { key := node.key, worldMatrix := node.worldMatrix
    , dataRef := node.dataRef, childrenRef := node.childrenRef } )

/-!
## Concrete fixtures used by witnesses and counterexamples
-/

/-- A bare graph node with a key. -/
def simpleNode (k : Int) : GNode :=
  GNode.mk NType.graphNode (some k) Mat3.one NData.empty []

/-- A graph node with prescribed selection flags. -/
def flagNode (k : Int) (sel act : Bool) : GNode :=
  GNode.mk NType.graphNode (some k) Mat3.one
    { NData.empty with selected := sel, active := act } []

/-- A plane holding two graph nodes with keys 0 and 1. -/
def twoNodePlane : GNode :=
  GNode.mk NType.plane none Mat3.one NData.empty [simpleNode 0, simpleNode 1]

/-- A full wire-format tree: root → window → plane with one selected and one
unselected graph node. -/
def demoTree : RootTree :=
  ⟨some "canvas", some 800, some 600,
    GNode.mk NType.window none Mat3.one NData.empty
      [GNode.mk NType.plane none Mat3.one NData.empty
        [flagNode 0 true false, flagNode 1 false false]]⟩

/-!
## Claim C7 — `liftReducer` with an absent key
-/

/-- C7: for every parent node and every key that is not the key of any of
its children, the parent-level mutation `liftReducer` builds from a keyed
child mutation returns the parent unchanged (the source returns a
field-identical shallow copy, which on values is the parent itself) and, as
a total Lean function of the embedded total source path, never raises. -/
theorem liftReducer_missing_key (parent : GNode) (key : Int)
    (reducer : GNode → GNode)
    (h : ∀ c ∈ parent.children, c.key ≠ some key) :
    liftReducer key reducer parent = parent := by
  unfold liftReducer
  have hnone : parent.children.findIdx? (fun c => c.key == some key) = none := by
    rw [List.findIdx?_eq_none_iff]
    intro x hx
    exact beq_eq_false_iff_ne.mpr (h x hx)
  rw [hnone]
  cases parent
  rfl

/-- Witness for C7 at a concrete two-node plane and the absent key 5, with
`selectNode` as the keyed child mutation. -/
theorem liftReducer_missing_key_witness :
    (∀ c ∈ twoNodePlane.children, c.key ≠ some 5) ∧
    liftReducer 5 selectNode twoNodePlane = twoNodePlane :=
  ⟨by decide, liftReducer_missing_key twoNodePlane 5 selectNode (by decide)⟩

/-!
## Claim C9 — which drag-move samples are emitted
-/

/-- Counterexample for C9: the claim says a move sample is emitted iff its
delta is nonzero; the sample `(movementX, movementY) = (5, 0)` has a nonzero
delta but the filter `e.movementX && e.movementY` suppresses it. -/
theorem moveSampleKept_not_iff_nonzero :
    ¬(moveSampleKept ⟨5, 0⟩ = true ↔ ((5 : ℤ) ≠ 0 ∨ (0 : ℤ) ≠ 0)) := by
  decide

/-- C9 as amended: a move sample after the first is emitted iff *both*
`movementX` and `movementY` are nonzero (a sample with exactly one zero
component is also suppressed); and every emitted sample becomes the
parent-scoped mutation that moves exactly the selected siblings, each by
`(movementX, movementY)` in canvas coordinates, preserving their payloads
and leaving unselected siblings untouched. -/
theorem moveSampleKept_iff_both_nonzero (e : MoveSample) (dx dy : ℚ)
    (parent : GNode) :
    (moveSampleKept e = true ↔ e.movementX ≠ 0 ∧ e.movementY ≠ 0) ∧
    ((dragNodes dx dy parent).children =
      parent.children.map
        (fun n => if n.data.selected then movedNode n dx dy else n)) ∧
    (∀ n : GNode, (movedNode n dx dy).data = n.data ∧
      (movedNode n dx dy).worldMatrix =
        (Mat3.translation dx dy).mul n.worldMatrix) := by
  refine ⟨?_, ?_, ?_⟩
  · simp [moveSampleKept]
  · cases parent; rfl
  · intro n
    constructor
    · simp [movedNode]
    · cases n with
      | mk t k w d cs =>
        simp only [movedNode, translatedFrame, Mat3.linApply, Mat3.one,
          worldMatrix_transformTree, GNode.worldMatrix_mk, Mat3.translation]
        norm_num

/-- Witness for C9 (amended) at the sample `(3, -2)` on the demo plane. -/
theorem moveSampleKept_iff_both_nonzero_witness :
    (moveSampleKept ⟨3, -2⟩ = true ↔ ((3 : ℤ) ≠ 0 ∧ (-2 : ℤ) ≠ 0)) ∧
    (movedNode (simpleNode 0) 3 (-2)).data = (simpleNode 0).data :=
  ⟨(moveSampleKept_iff_both_nonzero ⟨3, -2⟩ 3 (-2) twoNodePlane).1,
    ((moveSampleKept_iff_both_nonzero ⟨3, -2⟩ 3 (-2) twoNodePlane).2.2
      (simpleNode 0)).1⟩

/-!
## Claim C2 — `deleteSelectedNodes`
-/

/-- C2 (code bug): `deleteSelectedNodes` throws a `ReferenceError` on every
input — the result literal reads the unbound identifier `height` — so no
tree with the selected nodes removed is ever returned (and the filter it
runs first keeps, rather than drops, the selected nodes). -/
theorem deleteSelectedNodes_always_raises (tree : RootTree) :
    deleteSelectedNodes tree = Except.error (JsError.referenceError "height") :=
  rfl

/-!
## Claim C3 — `appendNode`
-/

/-- C3 (code bug): `appendNode` throws a `ReferenceError` on every input —
the children literal evaluates the unbound identifier `deselectBox` — so it
never returns the tree extended with the new graph node, also on an empty
plane. -/
theorem appendNode_always_raises (tree : RootTree) :
    appendNode tree = Except.error (JsError.referenceError "deselectBox") :=
  rfl

/-!
## Claim C6 — no in-place mutation
-/

/-- The heap in which every data address holds an empty, unselected payload. -/
def emptyHeap : Heap := fun _ => NData.empty

/-- A heap node whose `data` object lives at address 0. -/
def heapNode : HNode := ⟨some 0, Mat3.one, 0, 0⟩

/-- Counterexample for C6: `selectNode` is *not* free of in-place mutation.
After the call, the `data` object the input node still references has
`selected = true` and `active = true`, while it held `false`/`false` before:
the reference held to the input is not an unchanged snapshot. -/
theorem selectNode_mutates_input :
    ((selectNodeJS emptyHeap heapNode).1 heapNode.dataRef ≠
      emptyHeap heapNode.dataRef) ∧
    ((selectNodeJS emptyHeap heapNode).1 heapNode.dataRef).selected = true ∧
    (emptyHeap heapNode.dataRef).selected = false := by
  refine ⟨?_, by decide, by decide⟩
  intro h
  have := congrArg NData.selected h
  simp [selectNodeJS, emptyHeap, heapNode, NData.empty] at this

/-- C6 as amended: `selectNode` and `deselectNode` return a new node whose
*fields* equal the input's (so sibling structure, keys, matrices and the
input's `children` array are shared unchanged), but the
`selected`/`active` flags are written through the `data` reference the copy
shares with the input: the input's `data` object is mutated in place, while
every other heap address and every other field of that `data` object is
left untouched.  References held to the input are therefore not immutable
snapshots; only unrelated objects are unaffected. -/
theorem selectNode_effect_and_frame (h : Heap) (node : HNode) :
    ((selectNodeJS h node).2 = node ∧
      (∀ a : Nat, a ≠ node.dataRef → (selectNodeJS h node).1 a = h a) ∧
      (selectNodeJS h node).1 node.dataRef =
        { h node.dataRef with selected := true, active := true }) ∧
    ((deselectNodeJS h node).2 = node ∧
      (∀ a : Nat, a ≠ node.dataRef → (deselectNodeJS h node).1 a = h a) ∧
      (deselectNodeJS h node).1 node.dataRef =
        { h node.dataRef with selected := false, active := false }) := by
  refine ⟨⟨rfl, ?_, ?_⟩, rfl, ?_, ?_⟩ <;>
    simp [selectNodeJS, deselectNodeJS]
  · intro a ha
    simp [ha]
  · intro a ha
    simp [ha]

/-- Witness for C6 (amended): at the concrete heap and node, the write lands
on address 0 and address 5 is untouched. -/
theorem selectNode_effect_and_frame_witness :
    (selectNodeJS emptyHeap heapNode).1 5 = emptyHeap 5 ∧
    (selectNodeJS emptyHeap heapNode).1 heapNode.dataRef =
      { emptyHeap heapNode.dataRef with selected := true, active := true } :=
  ⟨(selectNode_effect_and_frame emptyHeap heapNode).1.2.1 5 (by decide),
    (selectNode_effect_and_frame emptyHeap heapNode).1.2.2⟩


/-!
## Claim C4 — the zoom clamp
-/

/-- A plane whose unit diagonal maps to the canvas vector `(6, -8)` — its
on-screen length is exactly 10 px, inside the claimed interval `[5, 10]`. -/
def zoomPlane : GNode :=
  GNode.mk NType.plane none ⟨6, 0, 0, 0, -8, 0, 0, 0, 1⟩ NData.empty []

/-- One wheel notch zooming in (`deltaY = -1`) with the pointer at the
canvas origin. -/
def zoomEvent : WheelEvent := ⟨-1, 0, 0⟩

/-- The screen length of the unit diagonal of `zoomPlane` is 10 px. -/
theorem diagNormSq_zoomPlane : diagNormSq zoomPlane = 100 := by
  norm_num [diagNormSq, zoomPlane, Mat3.linApply]

/-- Scaling the plane by `(f, f)` about any mouse-pivot frame multiplies the
squared norm of the canvas image of the unit diagonal by `f²` (the pivot
only affects the translation column), provided the plane's matrix is affine
(bottom row `0 0 1`), as every frame matrix of this system is. -/
theorem diagNormSq_scaledFrame (plane : GNode) (f x y : ℚ)
    (h20 : plane.worldMatrix.m20 = 0) (h21 : plane.worldMatrix.m21 = 0) :
    diagNormSq (scaledFrame plane (f, f) (mouseFrame x y)) =
      f ^ 2 * diagNormSq plane := by
  cases plane with
  | mk t k w d cs =>
    simp only [GNode.worldMatrix_mk] at h20 h21
    simp only [scaledFrame, mouseFrame, diagNormSq, Mat3.mul, Mat3.inv,
      Mat3.det, Mat3.diagScale, Mat3.linApply, worldMatrix_transformTree,
      GNode.worldMatrix_mk, h20, h21]
    ring_nf

/-- The zoom step applied to `zoomPlane` with `zoomEvent` scales the plane
by 1.1: the resulting unit-diagonal screen length is 11 px (squared: 121). -/
theorem diagNormSq_changeZoom_zoomPlane :
    diagNormSq (changeZoom zoomEvent zoomPlane) = 121 := by
  have hg1 : ¬(diagNormSq zoomPlane < 625 ∧ zoomEvent.deltaY > 0) := by
    rw [diagNormSq_zoomPlane]
    norm_num [zoomEvent]
  have hg2 : ¬(diagNormSq zoomPlane > 10000 ∧ zoomEvent.deltaY < 0) := by
    rw [diagNormSq_zoomPlane]
    norm_num
  rw [changeZoom, if_neg hg1, if_neg hg2]
  have hfac : ((11 / 10 : ℚ) ^ (-zoomEvent.deltaY)) = 11 / 10 := by
    norm_num [zoomEvent]
  rw [hfac]
  show diagNormSq (scaledFrame zoomPlane (11 / 10, 11 / 10) (mouseFrame 0 0)) = 121
  rw [diagNormSq_scaledFrame zoomPlane (11 / 10) 0 0 rfl rfl,
    diagNormSq_zoomPlane]
  norm_num

/-- Counterexample for C4: from a plane whose unit-diagonal screen length is
10 px (squared norm 100, inside `[5,10]` px), the single wheel event
`deltaY = -1` passes both guards (the code compares `sqrt(length) = √10 ≈
3.16` against 5 and 10, and the zoom-out guard needs `deltaY > 0`) and
scales the plane by 1.1, producing screen length 11 px (squared norm 121) —
outside `[5, 10]`.  So the zoom step *can* produce a plane whose unit
diagonal has on-screen length outside the interval, for a small `deltaY`
already. -/
theorem changeZoom_escapes_interval :
    (25 ≤ diagNormSq zoomPlane ∧ diagNormSq zoomPlane ≤ 100) ∧
    ¬(25 ≤ diagNormSq (changeZoom zoomEvent zoomPlane) ∧
      diagNormSq (changeZoom zoomEvent zoomPlane) ≤ 100) := by
  rw [diagNormSq_zoomPlane, diagNormSq_changeZoom_zoomPlane]
  norm_num

/-- The squared unit-diagonal screen length is a sum of squares. -/
theorem diagNormSq_nonneg (plane : GNode) : 0 ≤ diagNormSq plane := by
  simp only [diagNormSq]
  positivity

/-- C4 as amended: the zoom step does not clamp its output into `[5, 10]`;
what it guarantees is (i) the guards — the plane is returned unchanged when
`sqrt(diagonal length) < 5` and the event zooms out (`deltaY > 0`), or
`sqrt(diagonal length) > 10` and it zooms in (`deltaY < 0`) — and (ii)
direction monotonicity: a zoom-out never increases the on-screen
unit-diagonal length and a zoom-in never decreases it.  (Lengths appear
squared: `sqrt(len) < 5 ↔ len² < 625`, `sqrt(len) > 10 ↔ len² > 10⁴`.)  A
single event with large `|deltaY|` may therefore land at any length beyond
a bound, as the counterexample shows. -/
theorem changeZoom_guards_and_monotone (event : WheelEvent) (plane : GNode)
    (h20 : plane.worldMatrix.m20 = 0) (h21 : plane.worldMatrix.m21 = 0) :
    (diagNormSq plane < 625 → 0 < event.deltaY →
      changeZoom event plane = plane) ∧
    (10000 < diagNormSq plane → event.deltaY < 0 →
      changeZoom event plane = plane) ∧
    (0 ≤ event.deltaY →
      diagNormSq (changeZoom event plane) ≤ diagNormSq plane) ∧
    (event.deltaY ≤ 0 →
      diagNormSq plane ≤ diagNormSq (changeZoom event plane)) := by
  refine ⟨?_, ?_, ?_, ?_⟩
  · intro h1 h2
    rw [changeZoom, if_pos ⟨h1, h2⟩]
  · intro h1 h2
    rw [changeZoom]
    by_cases hA : diagNormSq plane < 625 ∧ 0 < event.deltaY
    · rw [if_pos hA]
    · rw [if_neg hA, if_pos ⟨h1, h2⟩]
  · intro hy
    rw [changeZoom]
    split_ifs with hA hB
    · exact le_refl _
    · exact le_refl _
    · show diagNormSq (scaledFrame plane (_, _) (mouseFrame _ _)) ≤ _
      rw [diagNormSq_scaledFrame plane _ _ _ h20 h21]
      have hf0 : (0 : ℚ) < (11 / 10 : ℚ) ^ (-event.deltaY) :=
        zpow_pos (by norm_num) _
      have hf1 : ((11 / 10 : ℚ) ^ (-event.deltaY)) ≤ 1 :=
        zpow_le_one_of_nonpos₀ (by norm_num) (by omega)
      calc ((11 / 10 : ℚ) ^ (-event.deltaY)) ^ 2 * diagNormSq plane
          ≤ 1 * diagNormSq plane := by
            apply mul_le_mul_of_nonneg_right _ (diagNormSq_nonneg plane)
            exact pow_le_one₀ hf0.le hf1
        _ = diagNormSq plane := one_mul _
  · intro hy
    rw [changeZoom]
    split_ifs with hA hB
    · exact le_refl _
    · exact le_refl _
    · show _ ≤ diagNormSq (scaledFrame plane (_, _) (mouseFrame _ _))
      rw [diagNormSq_scaledFrame plane _ _ _ h20 h21]
      have hf1 : (1 : ℚ) ≤ (11 / 10 : ℚ) ^ (-event.deltaY) :=
        one_le_zpow₀ (by norm_num) (by omega)
      calc diagNormSq plane = 1 * diagNormSq plane := (one_mul _).symm
        _ ≤ ((11 / 10 : ℚ) ^ (-event.deltaY)) ^ 2 * diagNormSq plane := by
            apply mul_le_mul_of_nonneg_right _ (diagNormSq_nonneg plane)
            exact one_le_pow₀ hf1

/-- Witness for C4 (amended): on `zoomPlane` (length inside the interval),
the lower guard fires for a zoom-out event with `deltaY = 3`, and the
concrete zoom-in event never decreases the length. -/
theorem changeZoom_guards_and_monotone_witness :
    changeZoom ⟨3, 0, 0⟩ zoomPlane = zoomPlane ∧
    diagNormSq zoomPlane ≤ diagNormSq (changeZoom zoomEvent zoomPlane) :=
  ⟨(changeZoom_guards_and_monotone ⟨3, 0, 0⟩ zoomPlane rfl rfl).1
      (by rw [diagNormSq_zoomPlane]; norm_num) (by norm_num),
    (changeZoom_guards_and_monotone zoomEvent zoomPlane rfl rfl).2.2.2
      (by norm_num [zoomEvent])⟩

/-!
## Claim C8 — `resizeState`
-/

theorem GNode.type_withMatrix (n w) : (GNode.withMatrix n w).type = n.type := by
  cases n; rfl

theorem GNode.key_withMatrix (n w) : (GNode.withMatrix n w).key = n.key := by
  cases n; rfl

theorem GNode.data_withMatrix (n w) : (GNode.withMatrix n w).data = n.data := by
  cases n; rfl

theorem GNode.children_withMatrix (n w) :
    (GNode.withMatrix n w).children = n.children := by
  cases n; rfl

theorem GNode.worldMatrix_withMatrix (n w) :
    (GNode.withMatrix n w).worldMatrix = w := by
  cases n; rfl

/-- Left multiplication by the identity matrix. -/
theorem Mat3.one_mul_mat (A : Mat3) : Mat3.one.mul A = A := by
  cases A
  simp [Mat3.mul, Mat3.one]

mutual

theorem transformTree_one : ∀ n : GNode, transformTree Mat3.one n = n
  | .mk t k w d cs => by
    rw [transformTree, Mat3.one_mul_mat, transformTrees_one cs]

theorem transformTrees_one : ∀ l : List GNode, transformTrees Mat3.one l = l
  | [] => rfl
  | c :: cs => by rw [transformTrees, transformTree_one c, transformTrees_one cs]

end

/-- Scaling by `(1, 1)` about the canvas-center pivot is the identity: the
conjugated matrix is the identity. -/
theorem scaledFrame_one_center (n : GNode) (width height : ℚ) :
    scaledFrame n (1, 1) (centerFrame width height) = n := by
  have hA : (centerFrame width height).worldMatrix.mul
      ((Mat3.diagScale 1 1).mul (centerFrame width height).worldMatrix.inv) =
      Mat3.one := by
    simp only [centerFrame, GNode.worldMatrix_mk, Mat3.diagScale, Mat3.inv,
      Mat3.det, Mat3.mul, Mat3.one, Mat3.mk.injEq]
    norm_num
    ring_nf
  rw [scaledFrame, hA, transformTree_one]

/-- C8: for every tree whose plane frame is in the y-flipped isotropic form
`[[s,0,tx],[0,-s,ty],[0,0,1]]`, `s ≠ 0` (the normal form every resize
establishes and every zoom/pan preserves), `resizeState tree width height`
installs the Window matrix `[[width/2, 0, width/2], [0, -height/2,
height/2], [0, 0, 1]]` — mapping `[-1,1]²` onto the pixel rectangle with Y
flipped — and returns the plane unchanged: in particular its effective
visual scale (pixels per plane unit, `|s|`) is the same before and after,
and resizing 800×600 → 400×300 halves the window scale factors. -/
theorem resizeState_spec (tree : RootTree) (plane : GNode)
    (width height s tx ty : ℚ)
    (hchild : tree.window.children = [plane])
    (hmat : plane.worldMatrix = ⟨s, 0, tx, 0, -s, ty, 0, 0, 1⟩)
    (hs : s ≠ 0) :
    (resizeState tree width height).window.worldMatrix = winMat width height ∧
    (resizeState tree width height).window.children = [plane] := by
  have hwchild : (withWorldMatrix tree.window (winMat width height)).children
      = [plane] := by
    rw [withWorldMatrix, GNode.children_withMatrix, hchild]
  constructor
  · show ((withWorldMatrix tree.window (winMat width height)).withChildren
      _).worldMatrix = winMat width height
    rw [GNode.worldMatrix_withChildren, withWorldMatrix,
      GNode.worldMatrix_withMatrix]
  · show ((withWorldMatrix tree.window (winMat width height)).withChildren
      [scaledFrame _ _ _]).children = [plane]
    rw [GNode.children_withChildren]
    rw [hwchild]
    show [scaledFrame plane (-plane.worldMatrix.m11 / plane.worldMatrix.m00, 1)
      (centerFrame width height)] = [plane]
    rw [hmat]
    show [scaledFrame plane (-(-s) / s, 1) (centerFrame width height)] = [plane]
    rw [neg_neg, div_self hs, scaledFrame_one_center]

/-- The plane of the resize fixture: isotropic y-flipped at 20 px/unit. -/
def resizePlane : GNode :=
  GNode.mk NType.plane none ⟨20, 0, 0, 0, -20, 0, 0, 0, 1⟩ NData.empty []

/-- An 800×600 tree whose window carries the matrix `resizeState` would
install for 800×600. -/
def resizeTree : RootTree :=
  ⟨some "canvas", some 800, some 600,
    GNode.mk NType.window none (winMat 800 600) NData.empty [resizePlane]⟩

/-- Witness for C8: resizing the 800×600 tree to 400×300 installs the window
matrix `[[200,0,200],[0,-150,150],[0,0,1]]` — each scale factor half of the
800×600 values `[[400,…],[0,-300,…]]` — and returns the plane unchanged
(still 20 px per plane unit). -/
theorem resizeState_spec_witness :
    (resizeState resizeTree 400 300).window.worldMatrix =
      ⟨200, 0, 200, 0, -150, 150, 0, 0, 1⟩ ∧
    (resizeState resizeTree 400 300).window.children = [resizePlane] := by
  have h := resizeState_spec resizeTree resizePlane 400 300 20 0 0 rfl rfl
    (by norm_num)
  refine ⟨?_, h.2⟩
  rw [h.1]
  simp only [winMat, Mat3.mk.injEq]
  norm_num

/-!
## Claim C10 — structure preserved by the edge repairs
-/

theorem mapFromIdx_length (f : ℕ → GNode → GNode) :
    ∀ (i : ℕ) (l : List GNode), (mapFromIdx f i l).length = l.length
  | _, [] => rfl
  | i, c :: cs => by
    rw [mapFromIdx, List.length_cons, List.length_cons,
      mapFromIdx_length f (i + 1) cs]

theorem mem_mapFromIdx (f : ℕ → GNode → GNode) :
    ∀ (i : ℕ) (l : List GNode) (c : GNode), c ∈ mapFromIdx f i l →
      ∃ j c', c' ∈ l ∧ c = f j c'
  | _, [], c, h => absurd h (List.not_mem_nil c)
  | i, x :: xs, c, h => by
    rw [mapFromIdx] at h
    rcases List.mem_cons.mp h with h1 | h2
    · exact ⟨i, x, List.mem_cons_self x xs, h1⟩
    · obtain ⟨j, c', hc', he⟩ := mem_mapFromIdx f (i + 1) xs c h2
      exact ⟨j, c', List.mem_cons_of_mem x hc', he⟩

@[simp] theorem type_edgeShiftAdd (node : GNode) (i : ℕ) (e : GNode) :
    (edgeShiftAdd node i e).type = e.type := by
  unfold edgeShiftAdd
  split <;> simp

@[simp] theorem data_edgeShiftAdd (node : GNode) (i : ℕ) (e : GNode) :
    (edgeShiftAdd node i e).data = e.data := by
  unfold edgeShiftAdd
  split <;> simp

@[simp] theorem type_edgeShiftBefore (node : GNode) (k : ℕ) (e : GNode) :
    (edgeShiftBefore node k e).type = e.type := by
  unfold edgeShiftBefore
  split <;> simp

@[simp] theorem data_edgeShiftBefore (node : GNode) (k : ℕ) (e : GNode) :
    (edgeShiftBefore node k e).data = e.data := by
  unfold edgeShiftBefore
  split <;> simp

@[simp] theorem type_edgeShiftAfter (node : GNode) (index k : ℕ) (e : GNode) :
    (edgeShiftAfter node index k e).type = e.type := by
  simp [edgeShiftAfter]

@[simp] theorem data_edgeShiftAfter (node : GNode) (index k : ℕ) (e : GNode) :
    (edgeShiftAfter node index k e).data = e.data := by
  simp [edgeShiftAfter]

/-- The shifts keep a node whose type is not out-edge-node untouched. -/
theorem edgeShiftAdd_of_inEdge (node : GNode) (i : ℕ) (e : GNode)
    (h : e.type = NType.inEdge) : edgeShiftAdd node i e = e := by
  unfold edgeShiftAdd
  rw [h]
  rfl

theorem edgeShiftBefore_of_inEdge (node : GNode) (k : ℕ) (e : GNode)
    (h : e.type = NType.inEdge) : edgeShiftBefore node k e = e := by
  unfold edgeShiftBefore
  rw [h]
  rfl

@[simp] theorem linkedTo_addEdgeNewEdge (node : GNode) :
    (addEdgeNewEdge node).data.linkedTo = none := by
  simp [addEdgeNewEdge]

@[simp] theorem type_addEdgeNewEdge (node : GNode) :
    (addEdgeNewEdge node).type =
      (node.children.getD (node.children.length - 1) node).type := by
  simp [addEdgeNewEdge]

/-- An in-range `getD` is a member of the list. -/
theorem getD_mem_of_lt {l : List GNode} {n : ℕ} (d : GNode)
    (h : n < l.length) : l.getD n d ∈ l := by
  rw [List.getD_eq_getElem?_getD, List.getElem?_eq_getElem h]
  exact List.getElem_mem h

/-- C10: on a graph node whose first child is its in-edge-node and whose
remaining children are out-edge-nodes, both edge repairs keep the
in-edge-node as the first child — identical, matrix included — leave every
other result child an out-edge-node (only those are translated; the new
trailing anchor is a translated copy of the last out-edge-node), and change
the number of children by exactly +1 (`addEdgeNode`) resp. −1
(`removeEdgeNode` at an out-edge index `1 ≤ i < length`). -/
theorem edgeRepair_structure (node inE : GNode) (outs : List GNode) (i : ℕ)
    (hc : node.children = inE :: outs)
    (hin : inE.type = NType.inEdge)
    (hout : ∀ c ∈ outs, c.type = NType.outEdge)
    (hi1 : 1 ≤ i) (hilen : i < node.children.length) :
    ((addEdgeNode node).children.length = node.children.length + 1 ∧
      (addEdgeNode node).children.head? = some inE ∧
      ∀ c ∈ (addEdgeNode node).children.tail, c.type = NType.outEdge) ∧
    ((removeEdgeNode node i).children.length = node.children.length - 1 ∧
      (removeEdgeNode node i).children.head? = some inE ∧
      ∀ c ∈ (removeEdgeNode node i).children.tail, c.type = NType.outEdge) := by
  obtain ⟨j, rfl⟩ : ∃ j, i = j + 1 :=
    ⟨i - 1, (Nat.succ_pred_eq_of_pos hi1).symm⟩
  have hlen : node.children.length = outs.length + 1 := by
    rw [hc, List.length_cons]
  have houts1 : 1 ≤ outs.length := by omega
  constructor
  · have hch : (addEdgeNode node).children
        = mapFromIdx (edgeShiftAdd node) 0 node.children
          ++ [addEdgeNewEdge node] := by
      rw [addEdgeNode, GNode.children_withChildren]
    refine ⟨?_, ?_, ?_⟩
    · rw [hch, List.length_append, mapFromIdx_length]
      rfl
    · rw [hch, hc, mapFromIdx, List.cons_append]
      rw [edgeShiftAdd_of_inEdge node 0 inE hin]
      rfl
    · rw [hch, hc, mapFromIdx, List.cons_append]
      intro c hmem
      simp only [List.tail_cons] at hmem
      rcases List.mem_append.mp hmem with h1 | h2
      · obtain ⟨j', c', hc', rfl⟩ := mem_mapFromIdx _ _ _ _ h1
        rw [type_edgeShiftAdd]
        exact hout c' hc'
      · have hc2 : c = addEdgeNewEdge node := by
          simpa using h2
      -- the new anchor is a copy of the last child, an out-edge-node
        subst hc2
        rw [type_addEdgeNewEdge, hc, List.length_cons, Nat.add_sub_cancel]
        have hidx : outs.length = (outs.length - 1) + 1 := by omega
        rw [hidx, List.getD_cons_succ]
        exact hout _ (getD_mem_of_lt node (by omega))
  · have hch : (removeEdgeNode node (j + 1)).children
        = mapFromIdx (edgeShiftBefore node) 0 (node.children.take (j + 1))
          ++ mapFromIdx (edgeShiftAfter node (j + 1)) 0
              (node.children.drop (j + 1 + 1)) := by
      rw [removeEdgeNode, GNode.children_withChildren]
    have htake : node.children.take (j + 1) = inE :: outs.take j := by
      rw [hc, List.take_succ_cons]
    have hdrop : node.children.drop (j + 1 + 1) = outs.drop (j + 1) := by
      rw [hc, List.drop_succ_cons]
    refine ⟨?_, ?_, ?_⟩
    · rw [hch, List.length_append, mapFromIdx_length, mapFromIdx_length,
        List.length_take, List.length_drop, hlen]
      omega
    · rw [hch, htake, mapFromIdx, List.cons_append]
      rw [edgeShiftBefore_of_inEdge node 0 inE hin]
      rfl
    · rw [hch, htake, hdrop, mapFromIdx, List.cons_append]
      intro c hmem
      simp only [List.tail_cons] at hmem
      rcases List.mem_append.mp hmem with h1 | h2
      · obtain ⟨j', c', hc', rfl⟩ := mem_mapFromIdx _ _ _ _ h1
        rw [type_edgeShiftBefore]
        exact hout c' (List.mem_of_mem_take hc')
      · obtain ⟨j', c', hc', rfl⟩ := mem_mapFromIdx _ _ _ _ h2
        rw [type_edgeShiftAfter]
        exact hout c' (List.mem_of_mem_drop hc')

/-- In-edge child of the witness graph node. -/
def wIn : GNode :=
  GNode.mk NType.inEdge none Mat3.one
    { NData.empty with parentKey := some 0, clickBox := [-4, -4, 4, 1] } []

/-- A resolved out-edge child (linked to node 7). -/
def wOutLinked : GNode :=
  GNode.mk NType.outEdge (some 0) Mat3.one
    { NData.empty with parentKey := some 0, linkedTo := some 7 } []

/-- The open trailing out-edge child. -/
def wOutOpen : GNode :=
  GNode.mk NType.outEdge (some 1) Mat3.one
    { NData.empty with parentKey := some 0 } []

/-- The witness graph node: `[in-edge, linked out-edge, open out-edge]`. -/
def wGraphNode : GNode :=
  GNode.mk NType.graphNode (some 0) Mat3.one NData.empty
    [wIn, wOutLinked, wOutOpen]

/-- Witness for C10 at the concrete three-child graph node with the repair
index 1. -/
theorem edgeRepair_structure_witness :
    ((addEdgeNode wGraphNode).children.length =
        wGraphNode.children.length + 1 ∧
      (addEdgeNode wGraphNode).children.head? = some wIn ∧
      ∀ c ∈ (addEdgeNode wGraphNode).children.tail,
        c.type = NType.outEdge) ∧
    ((removeEdgeNode wGraphNode 1).children.length =
        wGraphNode.children.length - 1 ∧
      (removeEdgeNode wGraphNode 1).children.head? = some wIn ∧
      ∀ c ∈ (removeEdgeNode wGraphNode 1).children.tail,
        c.type = NType.outEdge) :=
  edgeRepair_structure wGraphNode wIn [wOutLinked, wOutOpen] 1 rfl rfl
    (by decide) (by decide) (by decide)

/-!
## Claim C1 — the trailing-anchor invariant after a drag release
-/

/-- The drag-release self mutation applied to the out-edge child at position
`i` — the routing `liftReducer` performs with the anchor's key, expressed
positionally. -/
def editOutAnchor (node : GNode) (i : ℕ) (hovered : Option GNode)
    (position : Option (ℚ × ℚ)) : GNode :=
  node.withChildren
    (node.children.set i
      (finalizeEdgeNode hovered position (node.children.getD i node)))

@[simp] theorem children_editOutAnchor (node i hovered position) :
    (editOutAnchor node i hovered position).children =
      node.children.set i
        (finalizeEdgeNode hovered position (node.children.getD i node)) := by
  simp [editOutAnchor]

@[simp] theorem type_finalizeEdgeNode (hovered position e) :
    (finalizeEdgeNode hovered position e).type = e.type := by
  simp [finalizeEdgeNode, updateEdgeNode]

@[simp] theorem linkedTo_finalizeEdgeNode (hovered position e) :
    (finalizeEdgeNode hovered position e).data.linkedTo =
      hovered.bind (fun hn => hn.data.parentKey) := by
  simp [finalizeEdgeNode, updateEdgeNode]

@[simp] theorem toPoint_finalizeEdgeNode (hovered position e) :
    (finalizeEdgeNode hovered position e).data.toPoint = none := by
  simp [finalizeEdgeNode, updateEdgeNode]

/-- An in-edge-node is never an open out-anchor. -/
theorem openOutP_of_inEdge (e : GNode) (h : e.type = NType.inEdge) :
    openOutP e = false := by
  simp [openOutP, h]

/-- A linked anchor is not open. -/
theorem openOutP_of_linked (e : GNode) (h : e.data.linkedTo ≠ none) :
    openOutP e = false := by
  unfold openOutP
  rw [beq_eq_false_iff_ne.mpr h, Bool.and_false]

/-- An out-edge-node without `linkedTo` is open. -/
theorem openOutP_of_open (e : GNode) (ht : e.type = NType.outEdge)
    (hl : e.data.linkedTo = none) : openOutP e = true := by
  simp [openOutP, ht, hl]

@[simp] theorem openOutP_edgeShiftAdd (node i e) :
    openOutP (edgeShiftAdd node i e) = openOutP e := by
  simp [openOutP]

@[simp] theorem openOutP_edgeShiftBefore (node k e) :
    openOutP (edgeShiftBefore node k e) = openOutP e := by
  simp [openOutP]

@[simp] theorem openOutP_edgeShiftAfter (node index k e) :
    openOutP (edgeShiftAfter node index k e) = openOutP e := by
  simp [openOutP]

/-- The `findIdx?` over a list whose prefix is all-false finds the first open
anchor right after the prefix. -/
theorem findIdx?_first_open :
    ∀ (l1 : List GNode) (x : GNode) (l2 : List GNode) (i : ℕ),
      (∀ c ∈ l1, openOutP c = false) → openOutP x = true →
      List.findIdx? openOutP (l1 ++ x :: l2) i = some (i + l1.length)
  | [], x, l2, i, _, hx => by
    simp [List.findIdx?_cons, hx]
  | a :: as, x, l2, i, h1, hx => by
    have ha : openOutP a = false := h1 a (List.mem_cons_self a as)
    have ih := findIdx?_first_open as x l2 (i + 1)
      (fun c hc => h1 c (List.mem_cons_of_mem a hc)) hx
    rw [List.cons_append, List.findIdx?_cons, ha]
    simp only [Bool.false_eq_true, if_false, ih, List.length_cons]
    congr 1
    omega

/-- The `mapFromIdx` distributes over append, continuing the count. -/
theorem mapFromIdx_append (f : ℕ → GNode → GNode) :
    ∀ (i : ℕ) (l1 l2 : List GNode),
      mapFromIdx f i (l1 ++ l2) =
        mapFromIdx f i l1 ++ mapFromIdx f (i + l1.length) l2
  | i, [], l2 => by simp [mapFromIdx]
  | i, a :: as, l2 => by
    rw [List.cons_append, mapFromIdx, mapFromIdx_append f (i + 1) as l2,
      mapFromIdx, List.cons_append, List.length_cons]
    have harith : i + 1 + as.length = i + (as.length + 1) := by omega
    rw [harith]

/-- C1: on a graph node satisfying the trailing-anchor invariant — children
`in-edge :: front ++ [last]` with every `front` anchor an out-edge-node
whose `linkedTo` is set and the last child an open out-edge-node — the Edge
Controller's drag-release finalize on any out-edge child (position
`1 ≤ i < length`; it sets `linkedTo` from the hovered in-edge-node or clears
it, and clears `to`) followed by the `updateGraphNode` repair yields
children of the shape `pre ++ [lastE]` where `lastE` is an open
out-edge-node and no element of `pre` is one: exactly one out-edge-node
child lacks `linkedTo` and it is positionally the last child. -/
theorem updateGraphNode_trailing_invariant
    (node inE lst : GNode) (front : List GNode) (i : ℕ)
    (hovered : Option GNode) (position : Option (ℚ × ℚ))
    (hc : node.children = inE :: (front ++ [lst]))
    (hin : inE.type = NType.inEdge)
    (hfrontT : ∀ c ∈ front, c.type = NType.outEdge)
    (hfrontL : ∀ c ∈ front, c.data.linkedTo ≠ none)
    (hlstT : lst.type = NType.outEdge)
    (hlstL : lst.data.linkedTo = none)
    (hi1 : 1 ≤ i) (hilen : i < node.children.length) :
    ∃ pre lastE,
      (updateGraphNode (editOutAnchor node i hovered position)).children
        = pre ++ [lastE] ∧
      openOutP lastE = true ∧
      ∀ c ∈ pre, openOutP c = false := by
  obtain ⟨j, rfl⟩ : ∃ j, i = j + 1 :=
    ⟨i - 1, (Nat.succ_pred_eq_of_pos hi1).symm⟩
  have hlen : node.children.length = front.length + 2 := by
    rw [hc]
    simp
  have hj : j ≤ front.length := by omega
  rcases Nat.lt_or_ge j front.length with hjlt | hjge
  · -- the edited anchor sits inside `front`
    have hgetD : node.children.getD (j + 1) node = front.getD j node := by
      rw [hc, List.getD_cons_succ, List.getD_eq_getElem?_getD,
        List.getD_eq_getElem?_getD, List.getElem?_append_left hjlt]
    have hfj_mem : front.getD j node ∈ front := getD_mem_of_lt node hjlt
    have hfjT : (front.getD j node).type = NType.outEdge := hfrontT _ hfj_mem
    set e' := finalizeEdgeNode hovered position (front.getD j node) with he'
    set node' := editOutAnchor node (j + 1) hovered position with hnode'
    have hch' : node'.children = inE :: (front.set j e' ++ [lst]) := by
      rw [hnode', children_editOutAnchor, hgetD, hc, List.set_cons_succ,
        List.set_append_left _ _ hjlt]
    have hlen' : node'.children.length = front.length + 2 := by
      rw [hch']
      simp
    have he'T : e'.type = NType.outEdge := by
      rw [he', type_finalizeEdgeNode, hfjT]
    cases hbind : hovered.bind (fun hn => hn.data.parentKey) with
    | some v =>
      -- link re-resolved: the open last anchor stays the only open one
      have he'np : openOutP e' = false := by
        apply openOutP_of_linked
        rw [he', linkedTo_finalizeEdgeNode, hbind]
        simp
      have hsetmem : ∀ c ∈ front.set j e', openOutP c = false := by
        intro c hcmem
        rcases List.mem_or_eq_of_mem_set hcmem with hmem | rfl
        · exact openOutP_of_linked c (hfrontL c hmem)
        · exact he'np
      have hfind : node'.children.findIdx? openOutP
          = some (front.length + 1) := by
        rw [hch', List.findIdx?_cons, openOutP_of_inEdge inE hin]
        simp only [Bool.false_eq_true, if_false]
        rw [show front.set j e' ++ [lst] = front.set j e' ++ lst :: [] from rfl,
          findIdx?_first_open (front.set j e') lst [] 1 hsetmem
            (openOutP_of_open lst hlstT hlstL), List.length_set]
        congr 1
        omega
      have hres : updateGraphNode node' = node' := by
        rw [updateGraphNode, hfind]
        simp only [hlen']
        rw [if_pos (by omega)]
      refine ⟨inE :: front.set j e', lst, ?_,
        openOutP_of_open lst hlstT hlstL, ?_⟩
      · rw [hres, hch', List.cons_append]
      · intro c hcmem
        rcases List.mem_cons.mp hcmem with rfl | hmem
        · exact openOutP_of_inEdge c hin
        · exact hsetmem c hmem
    | none =>
      -- link cleared on a non-last anchor: that anchor is removed
      have he'p : openOutP e' = true := by
        apply openOutP_of_open _ he'T
        rw [he', linkedTo_finalizeEdgeNode, hbind]
      have htakemem : ∀ c ∈ front.take j, openOutP c = false := fun c hcm =>
        openOutP_of_linked c (hfrontL c (List.mem_of_mem_take hcm))
      have hset : front.set j e'
          = front.take j ++ e' :: front.drop (j + 1) :=
        List.set_eq_take_cons_drop e' hjlt
      have hlentake : (front.take j).length = j := by
        rw [List.length_take]
        omega
      have hfind : node'.children.findIdx? openOutP = some (j + 1) := by
        rw [hch', List.findIdx?_cons, openOutP_of_inEdge inE hin]
        simp only [Bool.false_eq_true, if_false]
        rw [hset, List.append_assoc, List.cons_append,
          findIdx?_first_open (front.take j) e'
            (front.drop (j + 1) ++ [lst]) 1 htakemem he'p, hlentake]
        congr 1
        omega
      have hres : updateGraphNode node' = removeEdgeNode node' (j + 1) := by
        rw [updateGraphNode, hfind]
        simp only [hlen']
        rw [if_neg (by omega)]
      have htake : node'.children.take (j + 1) = inE :: front.take j := by
        rw [hch', List.take_succ_cons,
          List.take_append_of_le_length (by rw [List.length_set]; omega),
          List.set_take, List.set_eq_of_length_le (List.length_take_le j front)]
      have hdrop : node'.children.drop (j + 1 + 1)
          = front.drop (j + 1) ++ [lst] := by
        rw [hch', List.drop_succ_cons,
          List.drop_append_of_le_length (by rw [List.length_set]; omega),
          List.drop_set, if_pos (by omega)]
      have hchr : (removeEdgeNode node' (j + 1)).children
          = mapFromIdx (edgeShiftBefore node') 0 (inE :: front.take j)
            ++ mapFromIdx (edgeShiftAfter node' (j + 1)) 0
                (front.drop (j + 1) ++ [lst]) := by
        rw [removeEdgeNode, GNode.children_withChildren, htake, hdrop]
      refine ⟨(edgeShiftBefore node' 0 inE
            :: mapFromIdx (edgeShiftBefore node') 1 (front.take j))
          ++ mapFromIdx (edgeShiftAfter node' (j + 1)) 0 (front.drop (j + 1)),
        edgeShiftAfter node' (j + 1) (0 + (front.drop (j + 1)).length) lst,
        ?_, ?_, ?_⟩
      · rw [hres, hchr, mapFromIdx, mapFromIdx_append,
          show mapFromIdx (edgeShiftAfter node' (j + 1))
              (0 + (front.drop (j + 1)).length) [lst]
            = [edgeShiftAfter node' (j + 1)
                (0 + (front.drop (j + 1)).length) lst] from rfl,
          ← List.append_assoc]
      · rw [openOutP_edgeShiftAfter]
        exact openOutP_of_open lst hlstT hlstL
      · intro c hcmem
        rcases List.mem_append.mp hcmem with h1 | h2
        · rcases List.mem_cons.mp h1 with rfl | hmem
          · rw [openOutP_edgeShiftBefore]
            exact openOutP_of_inEdge inE hin
          · obtain ⟨j', c', hc', rfl⟩ := mem_mapFromIdx _ _ _ _ hmem
            rw [openOutP_edgeShiftBefore]
            exact htakemem c' hc'
        · obtain ⟨j', c', hc', rfl⟩ := mem_mapFromIdx _ _ _ _ h2
          rw [openOutP_edgeShiftAfter]
          exact openOutP_of_linked c' (hfrontL c' (List.mem_of_mem_drop hc'))
  · -- the edited anchor is the trailing open anchor itself
    have hjeq : j = front.length := by omega
    subst hjeq
    have hgetD : node.children.getD (front.length + 1) node = lst := by
      rw [hc, List.getD_cons_succ, List.getD_eq_getElem?_getD,
        List.getElem?_append_right (le_refl _)]
      simp
    set e' := finalizeEdgeNode hovered position lst with he'
    set node' := editOutAnchor node (front.length + 1) hovered position
      with hnode'
    have hch' : node'.children = inE :: (front ++ [e']) := by
      rw [hnode', children_editOutAnchor, hgetD, hc, List.set_cons_succ,
        List.set_append_right _ _ (le_refl _), Nat.sub_self,
        List.set_cons_zero]
    have hlen' : node'.children.length = front.length + 2 := by
      rw [hch']
      simp
    have he'T : e'.type = NType.outEdge := by
      rw [he', type_finalizeEdgeNode, hlstT]
    cases hbind : hovered.bind (fun hn => hn.data.parentKey) with
    | some v =>
      -- the trailing anchor was consumed by a link: append a fresh one
      have he'np : openOutP e' = false := by
        apply openOutP_of_linked
        rw [he', linkedTo_finalizeEdgeNode, hbind]
        simp
      have hallfalse : ∀ c ∈ node'.children, openOutP c = false := by
        intro c hcmem
        rw [hch'] at hcmem
        rcases List.mem_cons.mp hcmem with rfl | hmem
        · exact openOutP_of_inEdge c hin
        · rcases List.mem_append.mp hmem with h1 | h2
          · exact openOutP_of_linked c (hfrontL c h1)
          · rw [List.mem_singleton.mp h2]
            exact he'np
      have hfind : node'.children.findIdx? openOutP = none :=
        List.findIdx?_eq_none_iff.mpr hallfalse
      have hres : updateGraphNode node' = addEdgeNode node' := by
        rw [updateGraphNode, hfind]
      have hnewlast : node'.children.getD (node'.children.length - 1) node'
          = e' := by
        rw [hlen', hch']
        have h21 : front.length + 2 - 1 = front.length + 1 := by omega
        rw [h21, List.getD_cons_succ, List.getD_eq_getElem?_getD,
          List.getElem?_append_right (le_refl _)]
        simp
      refine ⟨mapFromIdx (edgeShiftAdd node') 0 node'.children,
        addEdgeNewEdge node', ?_, ?_, ?_⟩
      · rw [hres, addEdgeNode, GNode.children_withChildren]
      · apply openOutP_of_open
        · rw [type_addEdgeNewEdge, hnewlast, he'T]
        · rw [linkedTo_addEdgeNewEdge]
      · intro c hcmem
        obtain ⟨j', c', hc', rfl⟩ := mem_mapFromIdx _ _ _ _ hcmem
        rw [openOutP_edgeShiftAdd]
        exact hallfalse c' hc'
    | none =>
      -- release without a hover target: the trailing anchor stays open
      have he'p : openOutP e' = true := by
        apply openOutP_of_open _ he'T
        rw [he', linkedTo_finalizeEdgeNode, hbind]
      have hfind : node'.children.findIdx? openOutP
          = some (front.length + 1) := by
        rw [hch', List.findIdx?_cons, openOutP_of_inEdge inE hin]
        simp only [Bool.false_eq_true, if_false]
        rw [show front ++ [e'] = front ++ e' :: [] from rfl,
          findIdx?_first_open front e' [] 1
            (fun c hcm => openOutP_of_linked c (hfrontL c hcm)) he'p]
        congr 1
        omega
      have hres : updateGraphNode node' = node' := by
        rw [updateGraphNode, hfind]
        simp only [hlen']
        rw [if_pos (by omega)]
      refine ⟨inE :: front, e', ?_, he'p, ?_⟩
      · rw [hres, hch', List.cons_append]
      · intro c hcmem
        rcases List.mem_cons.mp hcmem with rfl | hmem
        · exact openOutP_of_inEdge c hin
        · exact openOutP_of_linked c (hfrontL c hmem)

/-- The hovered foreign in-edge-node (belonging to graph node 5) under the
pointer at release time. -/
def wHover : GNode :=
  GNode.mk NType.inEdge none Mat3.one
    { NData.empty with parentKey := some 5 } []

/-- Witness for C1: on the three-child witness graph node, release the drag
of its open trailing anchor (position 2) over `wHover` — the repair appends
a fresh open trailing anchor. -/
theorem updateGraphNode_trailing_invariant_witness :
    ∃ pre lastE,
      (updateGraphNode
          (editOutAnchor wGraphNode 2 (some wHover) none)).children
        = pre ++ [lastE] ∧
      openOutP lastE = true ∧
      ∀ c ∈ pre, openOutP c = false :=
  updateGraphNode_trailing_invariant wGraphNode wIn wOutOpen [wOutLinked] 2
    (some wHover) none rfl rfl (by decide) (by decide) rfl rfl
    (by decide) (by decide)

/-!
## Claim C5 — the active/selected invariant over reachable states
-/

/-- The plane-level invariant: at most one graph node is active, and every
active node is selected. -/
def PlaneInv (p : GNode) : Prop :=
  p.children.countP (fun c => c.data.active) ≤ 1 ∧
  ∀ c ∈ p.children, c.data.active = true → c.data.selected = true

/-- A two-node plane: node 0 selected and active, node 1 idle. -/
def invPlane : GNode :=
  GNode.mk NType.plane none Mat3.one NData.empty
    [flagNode 0 true true, flagNode 1 false false]

/-- Counterexample for C5: `invPlane` satisfies the invariant, but applying
*one* emitted mutation from the claim's list — the lifted `selectNode` self
mutation a shift-click on idle node 1 emits (its paired `makeActive` parent
mutation is a separate emission) — produces a state with two active nodes:
the invariant does not hold after every single emitted mutation. -/
theorem planeInv_broken_by_lifted_selectNode :
    PlaneInv invPlane ∧ ¬PlaneInv (liftReducer 1 selectNode invPlane) := by
  constructor
  · refine ⟨by decide, ?_⟩
    decide
  · intro h
    have := h.1
    revert this
    decide

theorem GNode.withChildren_self (p : GNode) : p.withChildren p.children = p := by
  cases p
  rfl

/-- The `getD` at an in-range index with any default is `get`. -/
theorem getD_eq_get {l : List GNode} {i : ℕ} (d : GNode) (h : i < l.length) :
    l.getD i d = l.get ⟨i, h⟩ := by
  rw [List.getD_eq_getElem?_getD, List.getElem?_eq_getElem h]
  rfl

/-- A node whose children are a data-preserving image of an
invariant-satisfying plane's children satisfies the invariant. -/
theorem planeInv_of_children_map (p q : GNode) (g : GNode → GNode)
    (hq : q.children = p.children.map g) (hg : ∀ c, (g c).data = c.data)
    (hInv : PlaneInv p) : PlaneInv q := by
  obtain ⟨h1, h2⟩ := hInv
  constructor
  · rw [hq, List.countP_map]
    have hcomp : ((fun c : GNode => c.data.active) ∘ g)
        = fun c : GNode => c.data.active := by
      funext c
      simp [Function.comp, hg c]
    rw [hcomp]
    exact h1
  · intro c hc
    rw [hq] at hc
    obtain ⟨c', hc', rfl⟩ := List.mem_map.mp hc
    rw [hg c']
    exact h2 c' hc'

/-- A node whose children are all freshly deselected satisfies the
invariant, whatever the source list. -/
theorem planeInv_of_map_deselect (q : GNode) (l : List GNode)
    (hq : q.children = l.map deselectNode) : PlaneInv q := by
  constructor
  · rw [hq, List.countP_map]
    have hcomp : ((fun c : GNode => c.data.active) ∘ deselectNode)
        = fun _ : GNode => false := by
      funext c
      simp [Function.comp, deselectNode]
    rw [hcomp]
    simp
  · intro c hc
    rw [hq] at hc
    obtain ⟨c', _, rfl⟩ := List.mem_map.mp hc
    intro hact
    simp [deselectNode] at hact

/-- Replacing one child by a node that is active only if the replaced child
was active cannot increase the number of active children. -/
theorem countP_active_set_le (x : GNode) :
    ∀ (l : List GNode) (i : ℕ),
      (x.data.active = true → (l.getD i x).data.active = true) →
      (l.set i x).countP (fun c => c.data.active) ≤
        l.countP (fun c => c.data.active)
  | [], _, _ => le_refl _
  | a :: as, 0, h => by
    rw [List.set_cons_zero, List.countP_cons, List.countP_cons]
    have hgd : (a :: as).getD 0 x = a := rfl
    rw [hgd] at h
    by_cases hx : x.data.active = true
    · rw [hx, h hx]
    · have hzero : (if x.data.active = true then 1 else 0) = 0 := if_neg hx
      rw [hzero]
      omega
  | a :: as, i + 1, h => by
    rw [List.set_cons_succ, List.countP_cons, List.countP_cons]
    have := countP_active_set_le x as i h
    omega

/-- The `liftReducer` preserves the invariant for any child mutation that, on an
invariant child, neither activates an inactive node nor yields an active
unselected one. -/
theorem planeInv_liftReducer (k : Int) (f : GNode → GNode) (p : GNode)
    (hInv : PlaneInv p)
    (hf : ∀ c : GNode, (c.data.active = true → c.data.selected = true) →
      ((f c).data.active = true → c.data.active = true) ∧
      ((f c).data.active = true → (f c).data.selected = true)) :
    PlaneInv (liftReducer k f p) := by
  rcases hidx : p.children.findIdx? (fun c => c.key == some k) with _ | i
  · have heq : liftReducer k f p = p.withChildren p.children := by
      unfold liftReducer
      rw [hidx]
    rw [heq, GNode.withChildren_self]
    exact hInv
  · have heq : liftReducer k f p
        = p.withChildren
            (p.children.set i (f (p.children.getD i p))) := by
      unfold liftReducer
      rw [hidx]
    have hi : i < p.children.length :=
      (List.findIdx?_eq_some_iff_findIdx_eq.mp hidx).1
    have hmem : p.children.getD i p ∈ p.children := getD_mem_of_lt p hi
    have hcinv : (p.children.getD i p).data.active = true →
        (p.children.getD i p).data.selected = true := hInv.2 _ hmem
    rw [heq]
    constructor
    · rw [GNode.children_withChildren]
      refine le_trans (countP_active_set_le _ _ _ ?_) hInv.1
      intro hact
      rw [getD_eq_get _ hi]
      have h1 := (hf (p.children.getD i p) hcinv).1 hact
      rw [getD_eq_get p hi] at h1
      exact h1
    · intro c hc
      rw [GNode.children_withChildren] at hc
      rcases List.mem_or_eq_of_mem_set hc with hmem' | rfl
      · exact hInv.2 c hmem'
      · exact (hf _ hcinv).2

/-- Moving a child to the front preserves the invariant (the children stay
the same multiset). -/
theorem planeInv_front_move (p : GNode) (hInv : PlaneInv p) (i : ℕ)
    (hi : i < p.children.length) :
    PlaneInv (p.withChildren
      (p.children.get ⟨i, hi⟩
        :: p.children.take i ++ p.children.drop (i + 1))) := by
  constructor
  · rw [GNode.children_withChildren, List.countP_append, List.countP_cons]
    have hsplit : p.children.countP (fun c => c.data.active)
        = (p.children.take i).countP (fun c => c.data.active)
          + (p.children.drop i).countP (fun c => c.data.active) := by
      conv_lhs => rw [← List.take_append_drop i p.children]
      rw [List.countP_append]
    have hdrop : p.children.drop i
        = p.children.get ⟨i, hi⟩ :: p.children.drop (i + 1) := by
      rw [List.drop_eq_getElem_cons hi]
      rfl
    rw [hdrop, List.countP_cons] at hsplit
    have h1 := hInv.1
    rw [hsplit] at h1
    omega
  · intro c hc
    rw [GNode.children_withChildren] at hc
    rcases List.mem_append.mp hc with hmem | h2
    · rcases List.mem_cons.mp hmem with rfl | h1
      · exact hInv.2 _ (List.get_mem p.children i hi)
      · exact hInv.2 c (List.mem_of_mem_take h1)
    · exact hInv.2 c (List.mem_of_mem_drop h2)

/-- The `moveTop` preserves the invariant. -/
theorem planeInv_moveTop (k : Int) (p : GNode) (hInv : PlaneInv p) :
    PlaneInv (moveTop k p) := by
  unfold moveTop
  split
  · rename_i index h
    exact planeInv_front_move p hInv index
      (List.findIdx?_eq_some_iff_findIdx_eq.mp h).1
  · exact hInv

/-- The rebuilt children of the promote branch satisfy the invariant
unconditionally: the front child is selected+activated and `active` is
cleared on every other sibling. -/
theorem planeInv_promoted_shape (q c0 : GNode) (rest : List GNode) :
    PlaneInv (q.withChildren
      (selectNode c0 ::
        rest.map (fun c => c.withData { c.data with active := false }))) := by
  constructor
  · rw [GNode.children_withChildren, List.countP_cons]
    have hmap : (rest.map
        (fun c => c.withData { c.data with active := false })).countP
          (fun c => c.data.active) = 0 := by
      rw [List.countP_eq_zero]
      intro a ha
      obtain ⟨c', _, rfl⟩ := List.mem_map.mp ha
      simp
    rw [hmap]
    simp [selectNode]
  · intro c hc
    rw [GNode.children_withChildren] at hc
    rcases List.mem_cons.mp hc with rfl | hmem
    · intro _
      simp [selectNode]
    · obtain ⟨c', _, rfl⟩ := List.mem_map.mp hmem
      intro hact
      simp at hact

/-- The rebuilt children of the exclusive-select branch satisfy the
invariant unconditionally. -/
theorem planeInv_exclusive_shape (q c0 : GNode) (rest : List GNode) :
    PlaneInv (q.withChildren (selectNode c0 :: rest.map deselectNode)) := by
  constructor
  · rw [GNode.children_withChildren, List.countP_cons]
    have hmap : (rest.map deselectNode).countP (fun c => c.data.active)
        = 0 := by
      rw [List.countP_eq_zero]
      intro a ha
      obtain ⟨c', _, rfl⟩ := List.mem_map.mp ha
      simp [deselectNode]
    rw [hmap]
    simp [selectNode]
  · intro c hc
    rw [GNode.children_withChildren] at hc
    rcases List.mem_cons.mp hc with rfl | hmem
    · intro _
      simp [selectNode]
    · obtain ⟨c', _, rfl⟩ := List.mem_map.mp hmem
      intro hact
      simp [deselectNode] at hact

/-- The `promoteIfTop` / `exclusiveIfTop` preserve the invariant. -/
theorem planeInv_promoteIfTop (k : Int) (q : GNode) (hInv : PlaneInv q) :
    PlaneInv (promoteIfTop k q) := by
  unfold promoteIfTop
  split
  · exact hInv
  · split
    · exact planeInv_promoted_shape q _ _
    · exact hInv

theorem planeInv_exclusiveIfTop (k : Int) (q : GNode) (hInv : PlaneInv q) :
    PlaneInv (exclusiveIfTop k q) := by
  unfold exclusiveIfTop
  split
  · exact hInv
  · split
    · exact planeInv_exclusive_shape q _ _
    · exact hInv

/-- The `makeActive` and `makeOnlySelected` preserve the invariant. -/
theorem planeInv_makeActive (k : Int) (p : GNode) (hInv : PlaneInv p) :
    PlaneInv (makeActive k p) :=
  planeInv_promoteIfTop k _ (planeInv_moveTop k p hInv)

theorem planeInv_makeOnlySelected (k : Int) (p : GNode) (hInv : PlaneInv p) :
    PlaneInv (makeOnlySelected k p) :=
  planeInv_exclusiveIfTop k _ (planeInv_moveTop k p hInv)

/-- When the key is present, `moveTop` puts a child carrying it at the
front. -/
theorem moveTop_found_head (k : Int) (q : GNode)
    (hfound : ∃ c ∈ q.children, c.key = some k) :
    ∃ c0 rest, (moveTop k q).children = c0 :: rest ∧ c0.key = some k := by
  unfold moveTop
  split
  · rename_i index h
    obtain ⟨hlt, hp, _⟩ := List.findIdx?_eq_some_iff_getElem.mp h
    refine ⟨q.children.get ⟨index, hlt⟩,
      q.children.take index ++ q.children.drop (index + 1), ?_, ?_⟩
    · rw [GNode.children_withChildren, List.cons_append]
    · simpa using hp
  · rename_i h
    obtain ⟨c, hcmem, hck⟩ := hfound
    have := List.findIdx?_eq_none_iff.mp h c hcmem
    rw [hck] at this
    simp at this

/-- The `promoteIfTop` yields the invariant whenever the front child carries the
key, whatever the input state. -/
theorem planeInv_promoteIfTop_of_headKey (k : Int) (q c0 : GNode)
    (rest : List GNode) (hch : q.children = c0 :: rest)
    (hk : c0.key = some k) : PlaneInv (promoteIfTop k q) := by
  unfold promoteIfTop
  split
  · rename_i heq
    rw [hch] at heq
    exact absurd heq (by simp)
  · rename_i c0' rest' heq
    rw [hch] at heq
    injection heq with h1 h2
    subst h1
    subst h2
    rw [if_pos (by simp [hk])]
    exact planeInv_promoted_shape q _ _

/-- With the key present among the children, `makeActive` establishes the
invariant regardless of the input state. -/
theorem planeInv_makeActive_of_present (k : Int) (q : GNode)
    (hfound : ∃ c ∈ q.children, c.key = some k) :
    PlaneInv (makeActive k q) := by
  obtain ⟨c0, rest, hch, hk⟩ := moveTop_found_head k q hfound
  exact planeInv_promoteIfTop_of_headKey k (moveTop k q) c0 rest hch hk

@[simp] theorem key_selectNode (c : GNode) : (selectNode c).key = c.key := by
  simp [selectNode]

/-- Applying a key-preserving mutation through `liftReducer` keeps the
target key present among the children. -/
theorem liftReducer_present_key (k : Int) (f : GNode → GNode) (p : GNode)
    (hkeys : ∀ c, (f c).key = c.key)
    (hfound : ∃ c ∈ p.children, c.key = some k) :
    ∃ c ∈ (liftReducer k f p).children, c.key = some k := by
  have hsome : ∃ i, p.children.findIdx? (fun c => c.key == some k)
      = some i := by
    obtain ⟨c, hcmem, hck⟩ := hfound
    rcases hidx : p.children.findIdx? (fun c => c.key == some k) with _ | i
    · have := List.findIdx?_eq_none_iff.mp hidx c hcmem
      rw [hck] at this
      simp at this
    · exact ⟨i, hidx⟩
  obtain ⟨i, hidx⟩ := hsome
  have heq : liftReducer k f p
      = p.withChildren (p.children.set i (f (p.children.getD i p))) := by
    unfold liftReducer
    rw [hidx]
  obtain ⟨hlt, hp, _⟩ := List.findIdx?_eq_some_iff_getElem.mp hidx
  rw [heq, GNode.children_withChildren]
  have hlt' : i < (p.children.set i (f (p.children.getD i p))).length := by
    rw [List.length_set]
    exact hlt
  refine ⟨_, List.getElem_mem hlt', ?_⟩
  rw [List.getElem_set_self, hkeys, getD_eq_get p hlt]
  simpa using hp

/-- The event-level transition relation of the Plane Controller: each
constructor is the batch of mutations one input event emits on the plane
(graph-node.js / graph-plane).  A shift-click on a non-active node emits
*two* coupled mutations — the lifted `selectNode` self mutation and the
`makeActive` parent mutation — which appear here as one composite step;
`nodeInternal` covers every lifted node-self mutation that only rewrites
the node's own children (edge updates and the `updateGraphNode` repair). -/
inductive PlaneStep : GNode → GNode → Prop where
  | deselectChild (k : Int) (p : GNode) :
      PlaneStep p (liftReducer k deselectNode p)
  | selectAndActivate (k : Int) (p : GNode) :
      PlaneStep p (makeActive k (liftReducer k selectNode p))
  | exclusiveSelect (k : Int) (p : GNode) :
      PlaneStep p (makeOnlySelected k p)
  | activate (k : Int) (p : GNode) :
      PlaneStep p (makeActive k p)
  | moveSelected (dx dy : ℚ) (p : GNode) :
      PlaneStep p (dragNodes dx dy p)
  | pan (dx dy : ℚ) (p : GNode) :
      PlaneStep p (dragPlane p dx dy)
  | wheelZoom (e : WheelEvent) (p : GNode) :
      PlaneStep p (changeZoom e p)
  | clickAway (p : GNode) :
      PlaneStep p (deselectGraphNodes p)
  | nodeInternal (k : Int) (f : GNode → GNode)
      (hf : ∀ c : GNode, (f c).data = c.data) (p : GNode) :
      PlaneStep p (liftReducer k f p)

/-- Every event-level step preserves the invariant. -/
theorem planeInv_step (p q : GNode) (hInv : PlaneInv p)
    (hstep : PlaneStep p q) : PlaneInv q := by
  cases hstep with
  | deselectChild k =>
    apply planeInv_liftReducer k deselectNode p hInv
    intro c _
    constructor <;> intro h <;> simp [deselectNode] at h
  | selectAndActivate k =>
    by_cases hk : ∃ c ∈ p.children, c.key = some k
    · exact planeInv_makeActive_of_present k _
        (liftReducer_present_key k selectNode p key_selectNode hk)
    · have hnone : p.children.findIdx? (fun c => c.key == some k)
          = none := by
        rw [List.findIdx?_eq_none_iff]
        intro c hc
        apply beq_eq_false_iff_ne.mpr
        intro hceq
        exact hk ⟨c, hc, hceq⟩
      have heq : liftReducer k selectNode p = p.withChildren p.children := by
        unfold liftReducer
        rw [hnone]
      rw [heq, GNode.withChildren_self]
      exact planeInv_makeActive k p hInv
  | exclusiveSelect k => exact planeInv_makeOnlySelected k p hInv
  | activate k => exact planeInv_makeActive k p hInv
  | moveSelected dx dy =>
    refine planeInv_of_children_map p _
      (fun node => if node.data.selected then movedNode node dx dy else node)
      ?_ ?_ hInv
    · simp [dragNodes]
    · intro c
      by_cases hsel : c.data.selected <;> simp [hsel, movedNode]
  | pan dx dy =>
    apply planeInv_of_map_deselect _
      ((translatedFrame p (dx, dy)
        (GNode.mk NType.root none Mat3.one NData.empty [])).children)
    simp [dragPlane]
  | wheelZoom e =>
    unfold changeZoom
    split_ifs with h1 h2
    · exact hInv
    · exact hInv
    · show PlaneInv (transformTree
        ((mouseFrame e.posX e.posY).worldMatrix.mul
          ((Mat3.diagScale ((11 / 10 : ℚ) ^ (-e.deltaY))
              ((11 / 10 : ℚ) ^ (-e.deltaY))).mul
            (mouseFrame e.posX e.posY).worldMatrix.inv)) p)
      refine planeInv_of_children_map p _
        (transformTree
          ((mouseFrame e.posX e.posY).worldMatrix.mul
            ((Mat3.diagScale ((11 / 10 : ℚ) ^ (-e.deltaY))
                ((11 / 10 : ℚ) ^ (-e.deltaY))).mul
              (mouseFrame e.posX e.posY).worldMatrix.inv))) ?_ ?_ hInv
      · exact children_transformTree _ p
      · intro c
        exact data_transformTree _ c
  | clickAway =>
    apply planeInv_of_map_deselect _ p.children
    simp [deselectGraphNodes]
  | nodeInternal k f hf =>
    apply planeInv_liftReducer k f p hInv
    intro c hc
    refine ⟨?_, ?_⟩
    · intro h
      rw [hf c] at h
      exact h
    · intro h
      rw [hf c] at h
      rw [hf c]
      exact hc h

/-- C5 as amended: at the granularity of whole emitted event batches —
with the lifted `selectNode` self mutation taken together with the
`makeActive` parent mutation the same shift-click emits, since `selectNode`
alone can transiently produce a second active node (see the
counterexample) — every state reachable from a seed satisfying the
invariant again has at most one active graph node, and every active node
selected. -/
theorem planeInv_reachable (p q : GNode) (hInv : PlaneInv p)
    (hsteps : Relation.ReflTransGen PlaneStep p q) : PlaneInv q := by
  induction hsteps with
  | refl => exact hInv
  | tail _ hstep ih => exact planeInv_step _ _ ih hstep

/-- Witness for C5 (amended): from the two-node seed, the composite
shift-click step on idle node 1 reaches a state that satisfies the
invariant. -/
theorem planeInv_reachable_witness :
    PlaneInv (makeActive 1 (liftReducer 1 selectNode invPlane)) :=
  planeInv_reachable invPlane _ ⟨by decide, by decide⟩
    (Relation.ReflTransGen.single (PlaneStep.selectAndActivate 1 invPlane))
